import Mathlib

/-!
Verification of the HubSpot → Reevo transformation engine (`src/main.py`,
class `HubSpotReevoTransformer` and the orchestration in `main`).

The embedding models Python strings as `List Char` (ASCII inputs; the
repository's data and all examples are ASCII).  Python's implicit
`self.cleaning_steps` buffer is made explicit: every normalising function
returns the list of `CleaningStep`s it appends, in append order, and
`transformRecord` returns the whole buffer for one record, exactly as
`transform_record` does after clearing it.
-/

namespace HubspotReevo

/-! ## Python string primitives -/

/-- Python `str.strip()` whitespace set (ASCII part). -/
def isPySpace (c : Char) : Bool :=
  c == ' ' || c == '\t' || c == '\n' || c == '\r' || c == '\x0b' || c == '\x0c'

/-- Python `str.strip()`: drop leading and trailing whitespace. -/
def strip (l : List Char) : List Char :=
  ((l.dropWhile isPySpace).reverse.dropWhile isPySpace).reverse

/-- The 26 ASCII uppercase letters with their lowercase forms. -/
def upperLower : List (Char × Char) :=
  [('A','a'),('B','b'),('C','c'),('D','d'),('E','e'),('F','f'),('G','g'),
   ('H','h'),('I','i'),('J','j'),('K','k'),('L','l'),('M','m'),('N','n'),
   ('O','o'),('P','p'),('Q','q'),('R','r'),('S','s'),('T','t'),('U','u'),
   ('V','v'),('W','w'),('X','x'),('Y','y'),('Z','z')]

/-- Python `str.lower()` on one character (ASCII part). -/
def lowerChar (c : Char) : Char :=
  ((upperLower.find? (fun p => p.1 == c)).map (fun p => p.2)).getD c

/-- Python `str.lower()`. -/
def lower (l : List Char) : List Char := l.map lowerChar

/-- Python `pat in s` (substring containment). -/
def containsSub (pat : List Char) : List Char → Bool
  | [] => pat.isPrefixOf []
  | c :: cs => pat.isPrefixOf (c :: cs) || containsSub pat cs

/-- Fuelled core of Python `str.replace(pat, '')`: scan left to right,
removing every non-overlapping occurrence of `pat`.  The fuel is only a
termination device; `pyReplace` always supplies enough. -/
def pyRepFuel (pat : List Char) : Nat → List Char → List Char
  | _, [] => []
  | 0, s => s
  | n + 1, c :: cs =>
    if pat.isPrefixOf (c :: cs) && !pat.isEmpty then
      pyRepFuel pat n ((c :: cs).drop pat.length)
    else c :: pyRepFuel pat n cs

/-- Python `s.replace(pat, '')` for a non-empty `pat`. -/
def pyReplace (pat : List Char) (s : List Char) : List Char :=
  pyRepFuel pat s.length s

/-! ## Cleaning-step audit records (`self.cleaning_steps` entries) -/

/-- One entry of the cleaning log: the dict
`{'field', 'original', 'cleaned'?, 'action'}` built in `main.py`. -/
structure CleaningStep where
  field : String
  original : List Char
  cleaned : Option (List Char)
  action : String
deriving DecidableEq, Repr

/-! ## `clean_domain` (main.py lines 124-163)

`urlparse` is modelled for the inputs `clean_domain` feeds it: the argument
always starts with `http://` or `https://` (the code prepends `https://`
otherwise), so `netloc` is the text after the scheme separator up to the
first of `/?#`, and `path` is the rest up to the first of `?#`.  The
`except` branch is reachable exactly when `urlparse` raises `ValueError`,
which for ASCII input is the unbalanced-bracket check on the netloc
("Invalid IPv6 URL"); `netlocBad` models that check. -/

def httpPref : List Char := ['h','t','t','p',':','/','/']
def httpsPref : List Char := ['h','t','t','p','s',':','/','/']
def wwwPat : List Char := ['w','w','w','.']

/-- `urlsplit`'s `ValueError` condition on a netloc: a `[` without `]` or a
`]` without `[`. -/
def netlocBad (nl : List Char) : Bool :=
  (decide ('[' ∈ nl) && !decide (']' ∈ nl)) ||
  (decide (']' ∈ nl) && !decide ('[' ∈ nl))

/-- `website = 'https://' + original` when the protocol is missing
(`original_website.startswith(('http://', 'https://'))`). -/
def withProto (original : List Char) : List Char :=
  if httpPref.isPrefixOf original || httpsPref.isPrefixOf original then original
  else httpsPref ++ original

/-- The text after the `http://` / `https://` scheme part. -/
def urlRest (url : List Char) : List Char :=
  if httpPref.isPrefixOf url then url.drop 7 else url.drop 8

/-- True while still inside the netloc (before `/`, `?` or `#`). -/
def notDelim (c : Char) : Bool := !(c == '/' || c == '?' || c == '#')

/-- `urlparse(url).netloc` for a url starting with `http(s)://`. -/
def netlocOf (url : List Char) : List Char :=
  (urlRest url).takeWhile notDelim

/-- `urlparse(url).path` for a url starting with `http(s)://`. -/
def pathOf (url : List Char) : List Char :=
  ((urlRest url).dropWhile notDelim).takeWhile (fun c => !(c == '?' || c == '#'))

/-- `parsed.netloc or parsed.path`. -/
def componentOf (url : List Char) : List Char :=
  if netlocOf url = [] then pathOf url else netlocOf url

/-- The try-branch result: `(parsed.netloc or parsed.path).replace('www.', '').lower()`. -/
def parsedDomain (url : List Char) : List Char :=
  lower (pyReplace wwwPat (componentOf url))

/-- The except-branch result:
`original.replace('http://','').replace('https://','').replace('www.','').split('/')[0].lower()`. -/
def fallbackDomain (original : List Char) : List Char :=
  lower ((pyReplace wwwPat (pyReplace httpsPref (pyReplace httpPref original))).takeWhile
    (fun c => !(c == '/')))

/-- `clean_domain`, returning the domain and the steps it appends.  A null
(`pd.isna`) argument behaves like the empty string: both hit the early
return. -/
def cleanDomain (website : List Char) : List Char × List CleaningStep :=
  if website = [] then ([], [])
  else
    let original := strip website
    let hasProto := httpPref.isPrefixOf original || httpsPref.isPrefixOf original
    let url := withProto original
    let act0 := "Extract domain" ++ (if hasProto then "" else ", Add https://")
    if netlocBad (netlocOf url) then
      let d := fallbackDomain original
      (d, [⟨"Website → Domain", original, some d, act0 ++ ", Fallback cleaning"⟩])
    else
      let d := parsedDomain url
      if d = lower original then (d, [])
      else (d, [⟨"Website → Domain", original, some d, act0 ++ ", Remove www/protocols"⟩])

/-! ## `clean_phone` and `get_best_phone` (main.py lines 165-214) -/

/-- A source record: field name to optional string value.  `none` covers
both an absent column and a `pd.isna` value (the code always tests the two
together). -/
abbrev SrcRecord := String → Option (List Char)

/-- The character class kept by `re.sub(r'[^\d\+\-\(\)\s]', '', ...)`
(ASCII part). -/
def isPhoneChar (c : Char) : Bool :=
  c.isDigit || c == '+' || c == '-' || c == '(' || c == ')' || isPySpace c

/-- `clean_phone`, returning the cleaned number and the steps it appends. -/
def cleanPhone (phone : List Char) : List Char × List CleaningStep :=
  if phone = [] then ([], [])
  else
    let original := strip phone
    let cleaned := original.filter isPhoneChar
    if cleaned = original then (cleaned, [])
    else (cleaned, [⟨"Phone Number", original, some cleaned, "Remove special characters"⟩])

/-- `self.phone_fields`: priority order. -/
def phoneFields : List String := ["Mobile", "Direct", "Office"]

/-- The loop state of `get_best_phone`: the `phone_selection` dict plus the
steps appended so far. -/
structure PhoneState where
  selectedField : Option String
  selectedValue : List Char
  available : List (String × List Char)
  steps : List CleaningStep
deriving Repr

/-- One iteration of the `for field in self.phone_fields` loop. -/
def phoneStep (ρ : SrcRecord) (st : PhoneState) (f : String) : PhoneState :=
  match ρ f with
  | none => st
  | some v =>
    if strip v = [] then st
    else
      let pv := (cleanPhone v).1
      let st1 : PhoneState :=
        { st with available := st.available ++ [(f, pv)],
                  steps := st.steps ++ (cleanPhone v).2 }
      match st.selectedField with
      | none => { st1 with selectedField := some f, selectedValue := pv }
      | some _ => st1

/-- `get_best_phone`: the selected value and the appended steps (the
per-field `clean_phone` steps, then one `Phone Selection` summary when a
field was selected). -/
def getBestPhone (ρ : SrcRecord) : List Char × List CleaningStep :=
  let st := phoneFields.foldl (phoneStep ρ) ⟨none, [], [], []⟩
  match st.selectedField with
  | none => (st.selectedValue, st.steps)
  | some f =>
    (st.selectedValue,
     st.steps ++
       [⟨"Phone Selection",
         ("Available: " ++ String.intercalate ", " (st.available.map (fun p => p.1))).data,
         some st.selectedValue,
         "Selected " ++ f ++ " (highest priority)"⟩])

/-- Whether a phone field counts as available:
`field in record and pd.notna(record[field]) and str(record[field]).strip()`. -/
def phoneAvail (ρ : SrcRecord) (f : String) : Bool :=
  match ρ f with
  | none => false
  | some v => !(strip v).isEmpty

/-- The available phone fields, in priority order. -/
def availOf (ρ : SrcRecord) (fs : List String) : List String :=
  fs.filter (phoneAvail ρ)

/-- The cleaned value of a phone field. -/
def availVal (ρ : SrcRecord) (f : String) : List Char :=
  (cleanPhone ((ρ f).getD [])).1

/-- The `clean_phone` steps of a phone field. -/
def availClean (ρ : SrcRecord) (f : String) : List CleaningStep :=
  (cleanPhone ((ρ f).getD [])).2

/-! ## `transform_record` (main.py lines 216-270) -/

/-- `self.reevo_template_headers`. -/
def reevoHeaders : List String :=
  ["contact_owner_id", "contact_first_name", "contact_last_name",
   "contact_primary_email", "contact_primary_phone_number", "contact_linkedin_url",
   "contact_account_role_title", "account_owner_id", "account_name",
   "account_domain_name", "account_linkedin_url"]

/-- `self.hubspot_to_reevo_mapping`, in the dict's insertion order. -/
def hubspotMapping : List (String × String) :=
  [("First Name", "contact_first_name"),
   ("Last Name", "contact_last_name"),
   ("Email", "contact_primary_email"),
   ("Personal Linkedin URL", "contact_linkedin_url"),
   ("Job Title", "contact_account_role_title"),
   ("Company Name", "account_name"),
   ("Website", "account_domain_name"),
   ("Company Linkedin URL", "account_linkedin_url")]

/-- A destination record: the Python dict as an insertion-ordered
association list. -/
abbrev DRec := List (String × List Char)

/-- `transformed[k] = v` on a dict whose keys already include `k`
(every key written by `transform_record` is one of the 11 headers). -/
def setField (k : String) (v : List Char) : DRec → DRec
  | [] => []
  | p :: ps => if p.1 = k then (k, v) :: ps else p :: setField k v ps

/-- The `for hubspot_field, reevo_field in self.hubspot_to_reevo_mapping`
loop: maps present, non-null source fields, routing `account_domain_name`
through `clean_domain` (which appends its steps to the buffer). -/
def applyMapping (ρ : SrcRecord) :
    List (String × String) → DRec × List CleaningStep → DRec × List CleaningStep
  | [], acc => acc
  | (hub, dest) :: ms, acc =>
    applyMapping ρ ms
      (match ρ hub with
       | none => acc
       | some v =>
         let ov := strip v
         let cd := if dest = "account_domain_name" then cleanDomain ov else (ov, [])
         (setField dest cd.1 acc.1, acc.2 ++ cd.2))

/-- `transform_record`: builds the destination record (all 11 headers
initialised to `''`, owners stamped when non-empty, mapped fields, then
the phone selector) and returns the cleaning-step buffer for this record.
`recordIndex` is accepted and unused, as in the source. -/
def transformRecord (ρ : SrcRecord) (recordIndex : Nat)
    (contactOwner accountOwner : List Char) : DRec × List CleaningStep :=
  let _ := recordIndex
  let init : DRec := reevoHeaders.map (fun h => (h, ([] : List Char)))
  let acc1 : DRec × List CleaningStep :=
    if contactOwner = [] then (init, [])
    else (setField "contact_owner_id" contactOwner init,
          [⟨"Contact Owner", "Empty".data, some contactOwner, "Set default contact owner"⟩])
  let acc2 : DRec × List CleaningStep :=
    if accountOwner = [] then acc1
    else (setField "account_owner_id" accountOwner acc1.1,
          acc1.2 ++ [⟨"Account Owner", "Empty".data, some accountOwner, "Set default account owner"⟩])
  let acc3 := applyMapping ρ hubspotMapping acc2
  (setField "contact_primary_phone_number" (getBestPhone ρ).1 acc3.1,
   acc3.2 ++ (getBestPhone ρ).2)

/-! ## `validate_record` (main.py lines 272-311) and `validate_email` (117-122) -/

/-- `[a-zA-Z0-9._%+-]`. -/
def isLocalChar (c : Char) : Bool :=
  c.isAlpha || c.isDigit || c == '.' || c == '_' || c == '%' || c == '+' || c == '-'

/-- `[a-zA-Z0-9.-]`. -/
def isDomainChar (c : Char) : Bool :=
  c.isAlpha || c.isDigit || c == '.' || c == '-'

/-- Decides `[a-zA-Z0-9.-]+\.[a-zA-Z]{2,}$` on the text after `@`.  The
trailing `[a-zA-Z]{2,}` is dot-free, so a backtracking match exists iff
the split at the last `.` works: everything after it is 2+ letters and
everything before it is 1+ domain characters. -/
def emailTailMatch (cs : List Char) : Bool :=
  let r := cs.reverse
  let t := r.takeWhile (fun c => !(c == '.'))
  match r.dropWhile (fun c => !(c == '.')) with
  | '.' :: d => !d.isEmpty && d.all isDomainChar && decide (2 ≤ t.length) && t.all Char.isAlpha
  | _ => false

/-- Decides `^[a-zA-Z0-9._%+-]+@[a-zA-Z0-9.-]+\.[a-zA-Z]{2,}$` (without the
`$` trailing-newline allowance).  `@` is outside every character class, so
the local part of any match is the maximal run of local characters. -/
def emailRegexMatch (cs : List Char) : Bool :=
  match cs.dropWhile isLocalChar with
  | '@' :: tail => !(cs.takeWhile isLocalChar).isEmpty && emailTailMatch tail
  | _ => false

/-- `validate_email`: false on null/`''`, else `re.match` of the anchored
pattern — Python's `$` also matches just before one final newline. -/
def validateEmail : Option (List Char) → Bool
  | none => false
  | some e =>
    if e = [] then false
    else emailRegexMatch e || (e.getLast? == some '\n' && emailRegexMatch e.dropLast)

/-- `f"Row {index + 1}: {msg}"`. -/
def rowMsg (index : Nat) (msg : String) : String :=
  "Row " ++ toString (index + 1) ++ ": " ++ msg

/-- `record.get(k, '')`. -/
def getD (ρ : SrcRecord) (k : String) : List Char := (ρ k).getD []

/-- `not record.get(k, '').strip()`. -/
def blankAfterStrip (ρ : SrcRecord) (k : String) : Bool :=
  (strip (getD ρ k)).isEmpty

/-- `has_email`. -/
def hasEmail (ρ : SrcRecord) : Bool := !blankAfterStrip ρ "contact_primary_email"

/-- `has_phone`. -/
def hasPhone (ρ : SrcRecord) : Bool := !blankAfterStrip ρ "contact_primary_phone_number"

/-- `url and 'linkedin.com' not in url.lower()` for a LinkedIn field. -/
def linkedinSuspect (ρ : SrcRecord) (k : String) : Bool :=
  !(getD ρ k).isEmpty && !containsSub "linkedin.com".data (lower (getD ρ k))

/-- `required_checks` (field key, human display name). -/
def requiredChecks : List (String × String) :=
  [("contact_first_name", "First Name"),
   ("contact_last_name", "Last Name"),
   ("account_name", "Company Name"),
   ("account_domain_name", "Website/Domain")]

/-- `validate_record`: the `(errors, warnings)` pair.  The four required
checks run in `required_checks` order, then the either-or check, then the
email-format check; the two LinkedIn checks produce warnings. -/
def validateRecord (ρ : SrcRecord) (index : Nat) : List String × List String :=
  ((if blankAfterStrip ρ "contact_first_name" then
      [rowMsg index "Missing required field 'First Name'"] else [])
   ++ (if blankAfterStrip ρ "contact_last_name" then
      [rowMsg index "Missing required field 'Last Name'"] else [])
   ++ (if blankAfterStrip ρ "account_name" then
      [rowMsg index "Missing required field 'Company Name'"] else [])
   ++ (if blankAfterStrip ρ "account_domain_name" then
      [rowMsg index "Missing required field 'Website/Domain'"] else [])
   ++ (if !hasEmail ρ && !hasPhone ρ then
      [rowMsg index "Must have either email or phone number"] else [])
   ++ (if hasEmail ρ && !validateEmail (ρ "contact_primary_email") then
      [rowMsg index "Invalid email format"] else []),
   (if linkedinSuspect ρ "contact_linkedin_url" then
      [rowMsg index "Personal LinkedIn URL may be invalid"] else [])
   ++ (if linkedinSuspect ρ "account_linkedin_url" then
      [rowMsg index "Company LinkedIn URL may be invalid"] else []))

/-! ## The validation / export pipeline (main.py lines 1049-1069, 1190-1197) -/

/-- A transformed row as the pipeline sees it (`record.to_dict()`). -/
abbrev PRec := List (String × List Char)

/-- Reading a field of a row dict. -/
def lookupRec (m : PRec) : SrcRecord :=
  fun k => (m.find? (fun p => p.1 == k)).map (fun p => p.2)

/-- `transformer.validate_record(record.to_dict(), i)`. -/
def validateRow (m : PRec) (i : Nat) : List String × List String :=
  validateRecord (lookupRec m) i

/-- A row is classified valid exactly when its error list is empty. -/
def isValidRow (p : Nat × PRec) : Bool := (validateRow p.2 p.1).1.isEmpty

/-- `valid_records` (step 4): indices with zero errors. -/
def validIndices (rs : List PRec) : List Nat :=
  (rs.enum.filter isValidRow).map (fun p => p.1)

/-- `invalid_records` (step 4): indices with at least one error. -/
def invalidIndices (rs : List PRec) : List Nat :=
  (rs.enum.filter (fun p => !isValidRow p)).map (fun p => p.1)

/-- `final_df = transformed_df.iloc[valid_records]` (step 5): the rows that
validate with zero errors, in order. -/
def finalExport (rs : List PRec) : List PRec :=
  (rs.enum.filter isValidRow).map (fun p => p.2)

/-! ## Auxiliary definitions used only to state claims -/

/-- The spec's reading of C4: strip only a leading `www.`, first
occurrence, then lowercase. -/
def specLeadingWwwStrip (component : List Char) : List Char :=
  lower (if wwwPat.isPrefixOf component then component.drop 4 else component)

/-- The phone record of the spec's worked example: Mobile and Direct both
present. -/
def phoneExample : SrcRecord := fun k =>
  if k = "Mobile" then some "+1 203-451-7659".data
  else if k = "Direct" then some "+1 203-557-0353".data
  else none

/-- The implicit-claim record: the highest-priority field holds only
characters outside the allowed phone set, a lower-priority field holds a
usable number. -/
def garbageMobile : SrcRecord := fun k =>
  if k = "Mobile" then some "abc".data
  else if k = "Direct" then some "+1 203-557-0353".data
  else none

/-- The record with both LinkedIn fields nulled out. -/
def maskLinkedin (ρ : SrcRecord) : SrcRecord := fun k =>
  if k = "contact_linkedin_url" ∨ k = "account_linkedin_url" then none else ρ k

/-! ## Lemmas about the string primitives -/

example : (cleanDomain "https://www.terrascend.com/".data).1 = "terrascend.com".data := by decide
example : cleanDomain "ayrwellness.com".data = ("ayrwellness.com".data, []) := by decide
example : (cleanDomain "https://foo.www.bar.com".data).1 = "foo.bar.com".data := by decide
example : (cleanDomain "WWW.example.com".data).1 = "www.example.com".data := by decide
example : (cleanDomain (cleanDomain "WWW.example.com".data).1).1 = "example.com".data := by decide
example : validateEmail (some "benjamin.rogers@ayrwellness.com".data) = true := by decide
example : validateEmail (some "not-an-email".data) = false := by decide

theorem lowerChar_idem (c : Char) : lowerChar (lowerChar c) = lowerChar c := by
  have key : upperLower.all
      (fun p => (upperLower.find? (fun q => q.1 == p.2)).isNone) = true := by decide
  unfold lowerChar
  cases hf : upperLower.find? (fun p => p.1 == c) with
  | none => simp [hf]
  | some p =>
    have hp : p ∈ upperLower := List.mem_of_find?_eq_some hf
    have h2 := List.all_eq_true.mp key p hp
    simp only [Option.map_some', Option.getD_some]
    rw [Option.isNone_iff_eq_none.mp h2]
    rfl

theorem lower_idem (l : List Char) : lower (lower l) = lower l := by
  induction l with
  | nil => rfl
  | cons c cs ih =>
    show lowerChar (lowerChar c) :: lower (lower cs) = lowerChar c :: lower cs
    rw [lowerChar_idem, ih]

/-- A character that is neither an uppercase letter nor the image of one is
a fixed point of lowering, and nothing else lowers to it. -/
theorem lowerChar_eq_special {c : Char}
    (h1 : (upperLower.find? (fun p => p.1 == c)).isNone = true)
    (h2 : upperLower.all (fun p => !(p.2 == c)) = true)
    (a : Char) : lowerChar a = c ↔ a = c := by
  unfold lowerChar
  cases hf : upperLower.find? (fun p => p.1 == a) with
  | none => simp
  | some p =>
    have hp : p ∈ upperLower := List.mem_of_find?_eq_some hf
    have hne : p.2 ≠ c := by
      have := List.all_eq_true.mp h2 p hp
      simpa using this
    simp only [Option.map_some', Option.getD_some]
    constructor
    · intro h; exact absurd h hne
    · intro h
      subst h
      rw [Option.isNone_iff_eq_none.mp h1] at hf
      cases hf

theorem mem_lower_special {c : Char} (hfix : ∀ a, lowerChar a = c ↔ a = c)
    (l : List Char) : c ∈ lower l ↔ c ∈ l := by
  simp only [lower, List.mem_map]
  constructor
  · rintro ⟨a, ha, hac⟩
    rwa [(hfix a).mp hac] at ha
  · intro h
    exact ⟨c, h, (hfix c).mpr rfl⟩

theorem pyRepFuel_eq_self (pat : List Char) (n : Nat) (l : List Char)
    (h : containsSub pat l = false) : pyRepFuel pat n l = l := by
  induction n generalizing l with
  | zero => cases l <;> rfl
  | succ n ih =>
    cases l with
    | nil => rfl
    | cons c cs =>
      rw [containsSub] at h
      obtain ⟨h1, h2⟩ := Bool.or_eq_false_iff.mp h
      simp only [pyRepFuel, h1, Bool.false_and, Bool.false_eq_true, if_false]
      rw [ih cs h2]

theorem pyReplace_eq_self {pat l : List Char} (h : containsSub pat l = false) :
    pyReplace pat l = l := pyRepFuel_eq_self pat l.length l h

theorem mem_pyRepFuel_iff {c : Char} {pat : List Char} (hc : c ∉ pat)
    (n : Nat) : ∀ l : List Char, l.length ≤ n → (c ∈ pyRepFuel pat n l ↔ c ∈ l) := by
  induction n with
  | zero =>
    intro l hl
    have : l = [] := List.length_eq_zero.mp (Nat.le_zero.mp hl)
    subst this
    exact Iff.rfl
  | succ n ih =>
    intro l hl
    cases l with
    | nil => exact Iff.rfl
    | cons x xs =>
      simp only [pyRepFuel]
      cases hpre : (pat.isPrefixOf (x :: xs) && !pat.isEmpty) with
      | false =>
        simp only [Bool.false_eq_true, if_false, List.mem_cons]
        have hxs : xs.length ≤ n := by
          simp only [List.length_cons] at hl
          omega
        rw [ih xs hxs]
      | true =>
        simp only [if_true]
        obtain ⟨hp, hne⟩ := Bool.and_eq_true_iff.mp hpre
        have hpfx : pat <+: (x :: xs) := List.isPrefixOf_iff_prefix.mp hp
        have heq : pat ++ (x :: xs).drop pat.length = x :: xs :=
          List.prefix_iff_eq_append.mp hpfx
        have hp1 : 1 ≤ pat.length := by
          cases pat with
          | nil => simp at hne
          | cons _ _ => simp
        have hlen : ((x :: xs).drop pat.length).length ≤ n := by
          simp only [List.length_drop, List.length_cons]
          simp only [List.length_cons] at hl
          omega
        rw [ih _ hlen]
        constructor
        · intro h
          rw [← heq]
          exact List.mem_append.mpr (Or.inr h)
        · intro h
          rw [← heq] at h
          rcases List.mem_append.mp h with h | h
          · exact absurd h hc
          · exact h

theorem mem_pyReplace_iff {c : Char} {pat : List Char} (hc : c ∉ pat)
    (l : List Char) : c ∈ pyReplace pat l ↔ c ∈ l :=
  mem_pyRepFuel_iff hc l.length l (Nat.le_refl _)

theorem dropWhile_head_false {p : Char → Bool} :
    ∀ {l : List Char} {x : Char} {xs : List Char},
      l.dropWhile p = x :: xs → p x = false := by
  intro l
  induction l with
  | nil => intro x xs h; cases h
  | cons a as ih =>
    intro x xs h
    rw [List.dropWhile_cons] at h
    by_cases ha : p a = true
    · rw [if_pos ha] at h
      exact ih h
    · rw [if_neg ha] at h
      cases h
      exact Bool.not_eq_true _ ▸ Bool.of_not_eq_true ha

/-! ## Lemmas about the `clean_domain` parse branch -/

theorem lowerChar_fix_lbracket : ∀ a, lowerChar a = '[' ↔ a = '[' :=
  lowerChar_eq_special (by decide) (by decide)

theorem lowerChar_fix_rbracket : ∀ a, lowerChar a = ']' ↔ a = ']' :=
  lowerChar_eq_special (by decide) (by decide)

theorem lowerChar_fix_slash : ∀ a, lowerChar a = '/' ↔ a = '/' :=
  lowerChar_eq_special (by decide) (by decide)

theorem lowerChar_fix_qmark : ∀ a, lowerChar a = '?' ↔ a = '?' :=
  lowerChar_eq_special (by decide) (by decide)

theorem lowerChar_fix_hash : ∀ a, lowerChar a = '#' ↔ a = '#' :=
  lowerChar_eq_special (by decide) (by decide)

/-- Membership of a www-free special character is invariant under the
parse branch's `.replace('www.','').lower()`. -/
theorem mem_replace_lower_iff {c : Char} (hfix : ∀ a, lowerChar a = c ↔ a = c)
    (hpat : c ∉ wwwPat) (l : List Char) :
    c ∈ lower (pyReplace wwwPat l) ↔ c ∈ l := by
  rw [mem_lower_special hfix, mem_pyReplace_iff hpat]

/-- The value returned by `clean_domain` when `urlparse` does not raise. -/
theorem cleanDomain_fst_parse {s : List Char} (hs : s ≠ [])
    (hok : netlocBad (netlocOf (withProto (strip s))) = false) :
    (cleanDomain s).1 = parsedDomain (withProto (strip s)) := by
  rw [cleanDomain, if_neg hs]
  simp only [hok, Bool.false_eq_true, if_false]
  split <;> rfl

/-- The steps emitted by `clean_domain` when `urlparse` does not raise:
one step exactly when the result differs from the lowercased trimmed
input, none otherwise. -/
theorem cleanDomain_snd_parse {s : List Char} (hs : s ≠ [])
    (hok : netlocBad (netlocOf (withProto (strip s))) = false) :
    (cleanDomain s).2.length =
      if (cleanDomain s).1 = lower (strip s) then 0 else 1 := by
  have hval := cleanDomain_fst_parse hs hok
  rw [cleanDomain, if_neg hs] at hval ⊢
  simp only [hok, Bool.false_eq_true, if_false] at hval ⊢
  split <;> simp_all

theorem httpPref_not_pre_https (l : List Char) :
    httpPref.isPrefixOf (httpsPref ++ l) = false := rfl

theorem wwwPat_not_pre_slash (t : List Char) :
    (wwwPat.isPrefixOf ('/' :: t) && !wwwPat.isEmpty) = false := rfl

/-- `replace('www.','')` keeps a leading `/`. -/
theorem pyReplace_www_slash_cons (t : List Char) :
    pyReplace wwwPat ('/' :: t) = '/' :: pyRepFuel wwwPat t.length t := by
  rw [pyReplace]
  simp only [List.length_cons, pyRepFuel, wwwPat_not_pre_slash, Bool.false_eq_true, if_false]

/-- A string that is already a parse-branch output of `clean_domain`
(lowercase, `www.`-free, trim-fixed, delimiter-free or starting with `/`)
is returned unchanged by a second pass. -/
theorem cleanDomain_fixed {d : List Char}
    (hlow : lower d = d)
    (hwww : containsSub wwwPat d = false)
    (hst : strip d = d)
    (hqd : '?' ∉ d) (hhd : '#' ∉ d)
    (hslash : ('/' ∉ d ∧ netlocBad d = false) ∨ d.head? = some '/') :
    (cleanDomain d).1 = d := by
  by_cases hd : d = []
  · subst hd; rfl
  · -- the second pass never sees a protocol: `http://` and `https://`
    -- contain `/` while `d` either has no `/` or starts with one.
    have hproto : (httpPref.isPrefixOf d || httpsPref.isPrefixOf d) = false := by
      rcases hslash with ⟨hnos, _⟩ | hhead
      · cases hp : httpPref.isPrefixOf d with
        | true =>
          have : '/' ∈ d := (List.isPrefixOf_iff_prefix.mp hp).subset (by decide)
          exact absurd this hnos
        | false =>
          cases hq : httpsPref.isPrefixOf d with
          | true =>
            have : '/' ∈ d := (List.isPrefixOf_iff_prefix.mp hq).subset (by decide)
            exact absurd this hnos
          | false => rfl
      · cases hp : httpPref.isPrefixOf d with
        | true =>
          have he := List.prefix_iff_eq_append.mp (List.isPrefixOf_iff_prefix.mp hp)
          rw [← he] at hhead
          cases hhead
        | false =>
          cases hq : httpsPref.isPrefixOf d with
          | true =>
            have he := List.prefix_iff_eq_append.mp (List.isPrefixOf_iff_prefix.mp hq)
            rw [← he] at hhead
            cases hhead
          | false => rfl
    have hwp : withProto (strip d) = httpsPref ++ d := by
      rw [hst, withProto, if_neg (by simp [hproto])]
    have hrest : urlRest (httpsPref ++ d) = d := by
      rw [urlRest, if_neg (by simp [httpPref_not_pre_https])]
      exact List.drop_left httpsPref d
    rcases hslash with ⟨hnos, hbr⟩ | hhead
    · -- no slash: the whole of `d` is the netloc of the second parse
      have hnl : netlocOf (httpsPref ++ d) = d := by
        rw [netlocOf, hrest]
        refine List.takeWhile_eq_self_iff.mpr ?_
        intro c hc
        rw [notDelim]
        have h1 : c ≠ '/' := fun h => hnos (h ▸ hc)
        have h2 : c ≠ '?' := fun h => hqd (h ▸ hc)
        have h3 : c ≠ '#' := fun h => hhd (h ▸ hc)
        simp [h1, h2, h3]
      have hok2 : netlocBad (netlocOf (withProto (strip d))) = false := by
        rw [hwp, hnl]; exact hbr
      rw [cleanDomain_fst_parse hd hok2, hwp, parsedDomain, componentOf, hnl,
        if_neg hd, pyReplace_eq_self hwww, hlow]
    · -- leading slash: empty netloc, the whole of `d` is the path
      obtain ⟨d', rfl⟩ : ∃ d', d = '/' :: d' := by
        cases d with
        | nil => cases hhead
        | cons x xs => cases hhead; exact ⟨xs, rfl⟩
      have hnl : netlocOf (httpsPref ++ '/' :: d') = [] := by
        rw [netlocOf, hrest, List.takeWhile_cons]
        simp [notDelim]
      have hpath : pathOf (httpsPref ++ '/' :: d') = '/' :: d' := by
        rw [pathOf, hrest, List.dropWhile_cons]
        rw [if_neg (by simp [notDelim])]
        refine List.takeWhile_eq_self_iff.mpr ?_
        intro c hc
        have h2 : c ≠ '?' := fun h => hqd (h ▸ hc)
        have h3 : c ≠ '#' := fun h => hhd (h ▸ hc)
        simp [h2, h3]
      have hok2 : netlocBad (netlocOf (withProto (strip ('/' :: d')))) = false := by
        rw [hwp, hnl]; rfl
      rw [cleanDomain_fst_parse hd hok2, hwp, parsedDomain, componentOf, hnl,
        if_pos rfl, hpath, pyReplace_eq_self hwww, hlow]

theorem componentOf_no_qmark (url : List Char) : '?' ∉ componentOf url := by
  intro h
  rw [componentOf] at h
  split at h
  · have := List.mem_takeWhile_imp h
    simp at this
  · have := List.mem_takeWhile_imp h
    simp [notDelim] at this

theorem componentOf_no_hash (url : List Char) : '#' ∉ componentOf url := by
  intro h
  rw [componentOf] at h
  split at h
  · have := List.mem_takeWhile_imp h
    simp at this
  · have := List.mem_takeWhile_imp h
    simp [notDelim] at this

/-- `netloc or path` is either slash-free with balanced brackets (netloc
case), or starts with `/`, or is empty. -/
theorem componentOf_cases (url : List Char) (hok : netlocBad (netlocOf url) = false) :
    ('/' ∉ componentOf url ∧ netlocBad (componentOf url) = false)
    ∨ (componentOf url).head? = some '/' ∨ componentOf url = [] := by
  rw [componentOf]
  split
  · by_cases hp : pathOf url = []
    · right; right; exact hp
    · right; left
      rw [pathOf] at hp ⊢
      cases hr : (urlRest url).dropWhile notDelim with
      | nil => rw [hr] at hp; simp at hp
      | cons z zs =>
        have hz := dropWhile_head_false hr
        rw [hr, List.takeWhile_cons] at hp
        rw [List.takeWhile_cons]
        by_cases hq : (!(z == '?' || z == '#')) = true
        · rw [if_pos hq]
          have hz2 : z = '/' := by
            simp [notDelim] at hz
            simp at hq
            tauto
          rw [hz2]
          rfl
        · rw [if_neg hq] at hp
          exact absurd rfl hp
  · rename_i hn
    left
    constructor
    · intro h
      have := List.mem_takeWhile_imp h
      simp [notDelim] at this
    · exact hok

theorem netlocBad_replace_lower (l : List Char) :
    netlocBad (lower (pyReplace wwwPat l)) = netlocBad l := by
  simp only [netlocBad]
  rw [decide_eq_decide.mpr (mem_replace_lower_iff lowerChar_fix_lbracket (by decide) l),
    decide_eq_decide.mpr (mem_replace_lower_iff lowerChar_fix_rbracket (by decide) l)]

/-- Claim C5, amended.  `clean_domain` applied to its own output is the
identity whenever the first pass takes the parsed-URL branch and its
result contains no `www.` and no leading/trailing whitespace. -/
theorem spec_c5_clean_domain_idem (s : List Char)
    (hok : netlocBad (netlocOf (withProto (strip s))) = false)
    (hwww : containsSub wwwPat (cleanDomain s).1 = false)
    (hst : strip (cleanDomain s).1 = (cleanDomain s).1) :
    (cleanDomain (cleanDomain s).1).1 = (cleanDomain s).1 := by
  by_cases hs : s = []
  · subst hs; rfl
  · have hval := cleanDomain_fst_parse hs hok
    rw [hval, parsedDomain] at hwww hst ⊢
    rcases componentOf_cases (withProto (strip s)) hok with ⟨hnos, hbr⟩ | hhead | hnil
    · exact cleanDomain_fixed (lower_idem _) hwww hst
        (by
          rw [mem_replace_lower_iff lowerChar_fix_qmark (by decide)]
          exact componentOf_no_qmark _)
        (by
          rw [mem_replace_lower_iff lowerChar_fix_hash (by decide)]
          exact componentOf_no_hash _)
        (Or.inl ⟨by
          rw [mem_replace_lower_iff lowerChar_fix_slash (by decide)]
          exact hnos,
          by rw [netlocBad_replace_lower]; exact hbr⟩)
    · refine cleanDomain_fixed (lower_idem _) hwww hst
        (by
          rw [mem_replace_lower_iff lowerChar_fix_qmark (by decide)]
          exact componentOf_no_qmark _)
        (by
          rw [mem_replace_lower_iff lowerChar_fix_hash (by decide)]
          exact componentOf_no_hash _)
        (Or.inr ?_)
      obtain ⟨t, ht⟩ : ∃ t, componentOf (withProto (strip s)) = '/' :: t := by
        cases hc : componentOf (withProto (strip s)) with
        | nil => rw [hc] at hhead; cases hhead
        | cons x xs =>
          rw [hc] at hhead
          cases hhead
          exact ⟨xs, rfl⟩
      rw [ht, pyReplace_www_slash_cons]
      rfl
    · rw [hnil]
      rfl

/-! ## Lemmas about `get_best_phone` -/

theorem availOf_cons (ρ : SrcRecord) (f : String) (fs : List String) :
    availOf ρ (f :: fs) =
      if phoneAvail ρ f then f :: availOf ρ fs else availOf ρ fs := by
  simp only [availOf, List.filter_cons]

theorem phoneStep_none {ρ : SrcRecord} {st : PhoneState} {f : String}
    (hv : ρ f = none) : phoneStep ρ st f = st := by
  simp [phoneStep, hv]

theorem phoneStep_blank {ρ : SrcRecord} {st : PhoneState} {f : String} {v : List Char}
    (hv : ρ f = some v) (hstr : strip v = []) : phoneStep ρ st f = st := by
  simp [phoneStep, hv, hstr]

theorem phoneStep_avail_first {ρ : SrcRecord} {st : PhoneState} {f : String}
    {v : List Char} (hv : ρ f = some v) (hstr : strip v ≠ [])
    (hsel : st.selectedField = none) :
    phoneStep ρ st f =
      { selectedField := some f, selectedValue := (cleanPhone v).1,
        available := st.available ++ [(f, (cleanPhone v).1)],
        steps := st.steps ++ (cleanPhone v).2 } := by
  simp [phoneStep, hv, hstr, hsel]

theorem phoneStep_avail_later {ρ : SrcRecord} {st : PhoneState} {f g : String}
    {v : List Char} (hv : ρ f = some v) (hstr : strip v ≠ [])
    (hsel : st.selectedField = some g) :
    phoneStep ρ st f =
      { st with available := st.available ++ [(f, (cleanPhone v).1)],
                steps := st.steps ++ (cleanPhone v).2 } := by
  simp [phoneStep, hv, hstr, hsel]

/-- Full characterisation of the `for field in self.phone_fields` loop:
every available field is cleaned and recorded in order, the first
available field (if the selection was still open) becomes the selection,
and later fields never override it. -/
theorem foldl_phoneStep_eq (ρ : SrcRecord) :
    ∀ (fs : List String) (st : PhoneState),
      fs.foldl (phoneStep ρ) st =
        { selectedField :=
            match st.selectedField with
            | some f => some f
            | none => (availOf ρ fs).head?,
          selectedValue :=
            match st.selectedField with
            | some _ => st.selectedValue
            | none =>
              match availOf ρ fs with
              | [] => st.selectedValue
              | f :: _ => availVal ρ f,
          available := st.available ++ (availOf ρ fs).map (fun f => (f, availVal ρ f)),
          steps := st.steps ++ (availOf ρ fs).flatMap (availClean ρ) } := by
  intro fs
  induction fs with
  | nil =>
    intro st
    cases st with
    | mk sf sv av ss =>
      simp only [List.foldl_nil, availOf, List.filter_nil, List.head?_nil, List.map_nil,
        List.flatMap_nil, List.append_nil]
      cases sf <;> rfl
  | cons f fs ih =>
    intro st
    rw [List.foldl_cons, ih (phoneStep ρ st f), availOf_cons]
    cases hv : ρ f with
    | none =>
      have hav : phoneAvail ρ f = false := by simp [phoneAvail, hv]
      rw [phoneStep_none hv, hav, if_neg Bool.false_ne_true]
    | some v =>
      by_cases hstr : strip v = []
      · have hav : phoneAvail ρ f = false := by simp [phoneAvail, hv, hstr]
        rw [phoneStep_blank hv hstr, hav, if_neg Bool.false_ne_true]
      · have hav : phoneAvail ρ f = true := by simp [phoneAvail, hv, hstr]
        rw [hav, if_pos rfl]
        have hval : availVal ρ f = (cleanPhone v).1 := by simp [availVal, hv]
        have hcl : availClean ρ f = (cleanPhone v).2 := by simp [availClean, hv]
        cases hsel : st.selectedField with
        | none =>
          rw [phoneStep_avail_first hv hstr hsel]
          simp [hsel, hval, hcl, List.append_assoc]
        | some g =>
          rw [phoneStep_avail_later hv hstr hsel]
          simp [hsel, hval, hcl, List.append_assoc]

/-- `get_best_phone`, characterised by the available-field list. -/
theorem getBestPhone_eq (ρ : SrcRecord) :
    getBestPhone ρ =
      match availOf ρ phoneFields with
      | [] => ([], [])
      | f :: _ =>
        (availVal ρ f,
         ((availOf ρ phoneFields).flatMap (availClean ρ)) ++
           [⟨"Phone Selection",
             ("Available: " ++ String.intercalate ", " (availOf ρ phoneFields)).data,
             some (availVal ρ f),
             "Selected " ++ f ++ " (highest priority)"⟩]) := by
  rw [getBestPhone, foldl_phoneStep_eq ρ phoneFields ⟨none, [], [], []⟩]
  cases hav : availOf ρ phoneFields with
  | nil => rfl
  | cons f fs =>
    simp only [List.head?_cons, List.nil_append]
    simp [List.map_map, Function.comp_def]

/-! ## Lemmas about `transform_record` -/

theorem setField_keys (k : String) (v : List Char) :
    ∀ m : DRec, (setField k v m).map Prod.fst = m.map Prod.fst := by
  intro m
  induction m with
  | nil => rfl
  | cons p ps ih =>
    rw [setField]
    by_cases h : p.1 = k
    · rw [if_pos h]
      simp [h]
    · rw [if_neg h]
      simp [ih]

theorem applyMapping_keys (ρ : SrcRecord) :
    ∀ (ms : List (String × String)) (acc : DRec × List CleaningStep),
      ((applyMapping ρ ms acc).1).map Prod.fst = acc.1.map Prod.fst := by
  intro ms
  induction ms with
  | nil => intro acc; rfl
  | cons p ms ih =>
    intro acc
    obtain ⟨hub, dest⟩ := p
    rw [applyMapping, ih]
    cases hv : ρ hub with
    | none => rfl
    | some v => simp [setField_keys]

/-! ## Lemmas about `validate_record` -/

theorem rowMsg_inj {i : Nat} {a b : String} (h : rowMsg i a = rowMsg i b) : a = b := by
  unfold rowMsg at h
  have h2 := congrArg String.data h
  simp only [String.data_append] at h2
  have h3 := List.append_cancel_left h2
  cases a
  cases b
  exact congrArg String.mk h3

theorem rowMsg_ne {i : Nat} {a b : String} (h : a ≠ b) : rowMsg i a ≠ rowMsg i b :=
  fun he => h (rowMsg_inj he)

/-- Membership of a message in a conditional singleton. -/
theorem mem_ite_singleton {b : Prop} [Decidable b] {m m' : String} :
    (m ∈ if b then [m'] else []) ↔ (b ∧ m = m') := by
  split <;> simp_all

/-- Count of a message in a conditional singleton. -/
theorem count_ite_singleton {b : Prop} [Decidable b] {m m' : String} :
    (if b then [m'] else []).count m = if b ∧ m' = m then 1 else 0 := by
  by_cases hb : b <;> by_cases hm : m' = m <;>
    simp [hb, hm, List.count_cons, beq_iff_eq]

theorem length_ite_singleton {b : Prop} [Decidable b] {m : String} :
    (if b then [m] else []).length = if b then 1 else 0 := by
  split <;> rfl

theorem ite_singleton_eq_nil {b : Prop} [Decidable b] {m : String} :
    ((if b then [m] else []) = []) ↔ ¬b := by
  split <;> simp_all

theorem rowMsg_eq_iff {i : Nat} {a b : String} : rowMsg i a = rowMsg i b ↔ a = b :=
  ⟨rowMsg_inj, fun h => by rw [h]⟩

/-- Whether a record is error-free does not depend on the row index: the
index only appears inside the message texts. -/
theorem validateRecord_errors_nil_iff (ρ : SrcRecord) (i : Nat) :
    ((validateRecord ρ i).1 = []) ↔
      (¬blankAfterStrip ρ "contact_first_name" = true ∧
       ¬blankAfterStrip ρ "contact_last_name" = true ∧
       ¬blankAfterStrip ρ "account_name" = true ∧
       ¬blankAfterStrip ρ "account_domain_name" = true ∧
       ¬(!hasEmail ρ && !hasPhone ρ) = true ∧
       ¬(hasEmail ρ && !validateEmail (ρ "contact_primary_email")) = true) := by
  simp only [validateRecord, List.append_eq_nil, ite_singleton_eq_nil]
  tauto

theorem validateRow_errors_nil_index {m : PRec} {i : Nat} (j : Nat)
    (h : (validateRow m i).1 = []) : (validateRow m j).1 = [] := by
  rw [validateRow] at h ⊢
  rw [validateRecord_errors_nil_iff] at h ⊢
  exact h

/-! ## Lemmas about the validation / export pipeline -/

theorem length_filter_add_length_filter_not {α : Type} (p : α → Bool) :
    ∀ l : List α, (l.filter p).length + (l.filter (fun a => !p a)).length = l.length := by
  intro l
  induction l with
  | nil => rfl
  | cons a as ih =>
    cases h : p a <;> simp [List.filter_cons, h, ← ih] <;> omega

theorem mem_finalExport_of {rs : List PRec} {p : Nat × PRec}
    (hp : p ∈ rs.enum) (h : (validateRow p.2 p.1).1 = []) :
    p.2 ∈ finalExport rs := by
  rw [finalExport]
  refine List.mem_map_of_mem _ (List.mem_filter.mpr ⟨hp, ?_⟩)
  simp [isValidRow, h]

theorem finalExport_mem_errors_nil {rs : List PRec} {r : PRec}
    (h : r ∈ finalExport rs) (j : Nat) : (validateRow r j).1 = [] := by
  rw [finalExport] at h
  obtain ⟨p, hp, rfl⟩ := List.mem_map.mp h
  have h2 := (List.mem_filter.mp hp).2
  rw [isValidRow, List.isEmpty_iff] at h2
  exact validateRow_errors_nil_index j h2

/-! ## The email regex as a declarative pattern -/

theorem takeWhile_append_all {p : Char → Bool} {l1 l2 : List Char}
    (h : ∀ c ∈ l1, p c = true) :
    (l1 ++ l2).takeWhile p = l1 ++ l2.takeWhile p := by
  induction l1 with
  | nil => rfl
  | cons a as ih =>
    rw [List.cons_append, List.takeWhile_cons, if_pos (h a (List.mem_cons_self a as)),
      List.cons_append, ih (fun c hc => h c (List.mem_cons_of_mem a hc))]

theorem dropWhile_append_all {p : Char → Bool} {l1 l2 : List Char}
    (h : ∀ c ∈ l1, p c = true) :
    (l1 ++ l2).dropWhile p = l2.dropWhile p := by
  induction l1 with
  | nil => rfl
  | cons a as ih =>
    rw [List.cons_append, List.dropWhile_cons, if_pos (h a (List.mem_cons_self a as))]
    exact ih (fun c hc => h c (List.mem_cons_of_mem a hc))

theorem alpha_ne_dot {c : Char} (hc : c.isAlpha = true) : (!(c == '.')) = true := by
  cases hd : (c == '.') with
  | false => rfl
  | true =>
    have : c = '.' := beq_iff_eq.mp hd
    subst this
    cases hc

/-- The last-dot decision procedure decides exactly the declarative
pattern `[a-zA-Z0-9.-]+ '.' [a-zA-Z]{2,}` anchored at both ends: the
trailing letter block is dot-free, so its `.` is the last dot. -/
theorem emailTailMatch_iff (tail : List Char) :
    emailTailMatch tail = true ↔
      ∃ D T : List Char, tail = D ++ '.' :: T ∧ D ≠ [] ∧
        (∀ c ∈ D, isDomainChar c = true) ∧ 2 ≤ T.length ∧
        (∀ c ∈ T, c.isAlpha = true) := by
  constructor
  · intro h
    simp only [emailTailMatch] at h
    split at h
    · rename_i d heq2
      simp only [Bool.and_eq_true_iff] at h
      obtain ⟨⟨⟨h1, h2⟩, h3⟩, h4⟩ := h
      set t := tail.reverse.takeWhile (fun c => !(c == '.')) with ht
      have hsplit : t ++ '.' :: d = tail.reverse := by
        rw [ht, ← heq2]
        exact List.takeWhile_append_dropWhile _ _
      have htail_eq : tail = d.reverse ++ '.' :: t.reverse := by
        have h5 := congrArg List.reverse hsplit
        rw [List.reverse_reverse] at h5
        rw [← h5, List.reverse_append, List.reverse_cons, List.append_assoc,
          List.singleton_append]
      refine ⟨d.reverse, t.reverse, htail_eq, ?_, ?_, ?_, ?_⟩
      · intro hnil
        rw [List.reverse_eq_nil_iff] at hnil
        rw [hnil] at h1
        cases h1
      · intro c hc
        exact List.all_eq_true.mp h2 c (List.mem_reverse.mp hc)
      · rw [List.length_reverse]
        exact of_decide_eq_true h3
      · intro c hc
        exact List.all_eq_true.mp h4 c (List.mem_reverse.mp hc)
    · cases h
  · rintro ⟨D, T, rfl, hD0, hD, hT2, hT⟩
    have hTdot : ∀ c ∈ T.reverse, (!(c == '.')) = true := fun c hc =>
      alpha_ne_dot (hT c (List.mem_reverse.mp hc))
    have hrev : (D ++ '.' :: T).reverse = T.reverse ++ '.' :: D.reverse := by
      rw [List.reverse_append, List.reverse_cons, List.append_assoc,
        List.singleton_append]
    have hdropw : (D ++ '.' :: T).reverse.dropWhile (fun c => !(c == '.'))
        = '.' :: D.reverse := by
      rw [hrev, dropWhile_append_all hTdot, List.dropWhile_cons, if_neg (by decide)]
    have htakew : (D ++ '.' :: T).reverse.takeWhile (fun c => !(c == '.'))
        = T.reverse := by
      rw [hrev, takeWhile_append_all hTdot, List.takeWhile_cons, if_neg (by decide),
        List.append_nil]
    simp only [emailTailMatch, hdropw, htakew]
    simp only [Bool.and_eq_true_iff]
    refine ⟨⟨⟨?_, ?_⟩, ?_⟩, ?_⟩
    · simp [List.isEmpty_iff, List.reverse_eq_nil_iff]
      intro hnil
      exact hD0 hnil
    · exact List.all_eq_true.mpr fun c hc => hD c (List.mem_reverse.mp hc)
    · rw [List.length_reverse]
      exact decide_eq_true hT2
    · exact List.all_eq_true.mpr fun c hc => hT c (List.mem_reverse.mp hc)

/-- The decision procedure `emailRegexMatch` decides exactly the
declarative pattern `local+ '@' domain+ '.' alpha{2,}` anchored at both
ends (the regex of `validate_email`, backtracking included: `@` lies in no
character class, so the local part is the maximal run of local
characters). -/
theorem emailRegexMatch_iff (e : List Char) :
    emailRegexMatch e = true ↔
      ∃ L D T : List Char,
        e = L ++ '@' :: (D ++ '.' :: T) ∧
        L ≠ [] ∧ (∀ c ∈ L, isLocalChar c = true) ∧
        D ≠ [] ∧ (∀ c ∈ D, isDomainChar c = true) ∧
        2 ≤ T.length ∧ (∀ c ∈ T, c.isAlpha = true) := by
  constructor
  · intro h
    rw [emailRegexMatch] at h
    split at h
    · rename_i tail heq
      simp only [Bool.and_eq_true_iff] at h
      obtain ⟨h0, htail⟩ := h
      obtain ⟨D, T, hDT, hD0, hD, hT2, hT⟩ := (emailTailMatch_iff tail).mp htail
      refine ⟨e.takeWhile isLocalChar, D, T, ?_, ?_, ?_, hD0, hD, hT2, hT⟩
      · rw [← hDT, ← heq]
        exact (List.takeWhile_append_dropWhile _ _).symm
      · intro hnil
        rw [hnil] at h0
        cases h0
      · intro c hc
        exact List.mem_takeWhile_imp hc
    · cases h
  · rintro ⟨L, D, T, rfl, hL0, hL, hD0, hD, hT2, hT⟩
    have hdropw : (L ++ '@' :: (D ++ '.' :: T)).dropWhile isLocalChar
        = '@' :: (D ++ '.' :: T) := by
      rw [dropWhile_append_all hL, List.dropWhile_cons, if_neg (by decide)]
    have htakew : (L ++ '@' :: (D ++ '.' :: T)).takeWhile isLocalChar = L := by
      rw [takeWhile_append_all hL, List.takeWhile_cons, if_neg (by decide),
        List.append_nil]
    rw [emailRegexMatch, hdropw]
    simp only [htakew, Bool.and_eq_true_iff]
    constructor
    · simp [List.isEmpty_iff]
      intro hnil
      exact hL0 hnil
    · exact (emailTailMatch_iff _).mpr ⟨D, T, rfl, hD0, hD, hT2, hT⟩

/-! ## The claims -/

theorem transformRecord_keys (ρ : SrcRecord) (i : Nat) (co ao : List Char) :
    ((transformRecord ρ i co ao).1).map Prod.fst = reevoHeaders := by
  rw [transformRecord]
  by_cases hco : co = [] <;> by_cases hao : ao = [] <;>
    simp [hco, hao, setField_keys, applyMapping_keys, List.map_map, Function.comp_def]

/-- Claim C1: for every source record, record index and owner
configuration, `transform_record` returns a destination record whose keys
are exactly the 11 Reevo template headers, in template order — so exactly
11 fields and no other keys — and every field is bound to a (possibly
empty) string: values in the embedding are `List Char`, never an optional,
mirroring that the code only ever assigns `''`, `str(...)` results, or the
cleaners' string outputs. -/
theorem spec_c1_transform_shape (ρ : SrcRecord) (i : Nat) (co ao : List Char) :
    ((transformRecord ρ i co ao).1).map Prod.fst = reevoHeaders ∧
    ((transformRecord ρ i co ao).1).length = 11 := by
  refine ⟨transformRecord_keys ρ i co ao, ?_⟩
  have h := congrArg List.length (transformRecord_keys ρ i co ao)
  rw [List.length_map] at h
  rw [h]
  rfl

/-- Claim C4 as stated is false.  On `https://foo.www.bar.com` the parsed
network-location component is `foo.www.bar.com`; stripping only a leading
`www.` (there is none) would leave it unchanged, but `clean_domain`
removes the interior `www.` too, because `str.replace('www.', '')`
removes every occurrence. -/
theorem spec_c4_counterexample :
    netlocOf (withProto (strip "https://foo.www.bar.com".data)) = "foo.www.bar.com".data ∧
    specLeadingWwwStrip "foo.www.bar.com".data = "foo.www.bar.com".data ∧
    (cleanDomain "https://foo.www.bar.com".data).1 = "foo.bar.com".data ∧
    (cleanDomain "https://foo.www.bar.com".data).1 ≠
      specLeadingWwwStrip (netlocOf (withProto (strip "https://foo.www.bar.com".data))) := by
  refine ⟨by decide, by decide, by decide, by decide⟩

/-- Claim C4, amended: in the parsed-URL path, after taking the
network-location component (or the path component when the
network-location is empty), every non-overlapping occurrence of the
literal `www.` is removed, scanning left to right — not only a leading
first occurrence — and then the result is lowercased.  The spec's example
still holds, and the non-leading removal is exhibited concretely. -/
theorem spec_c4_www_strip (s : List Char) (hs : s ≠ [])
    (hok : netlocBad (netlocOf (withProto (strip s))) = false) :
    (cleanDomain s).1 = lower (pyReplace wwwPat (componentOf (withProto (strip s)))) ∧
    (cleanDomain "https://www.terrascend.com/".data).1 = "terrascend.com".data ∧
    pyReplace wwwPat "foo.www.bar.com".data = "foo.bar.com".data := by
  exact ⟨cleanDomain_fst_parse hs hok, by decide, by decide⟩

theorem spec_c4_witness :
    (cleanDomain "https://www.terrascend.com/".data).1 =
      lower (pyReplace wwwPat
        (componentOf (withProto (strip "https://www.terrascend.com/".data)))) ∧
    (cleanDomain "https://www.terrascend.com/".data).1 = "terrascend.com".data ∧
    pyReplace wwwPat "foo.www.bar.com".data = "foo.bar.com".data :=
  spec_c4_www_strip "https://www.terrascend.com/".data (by decide) (by decide)

/-- Claim C5 as stated is false.  `"WWW.example.com"` takes the parsed-URL
path (no exception), its first pass yields `"www.example.com"` (the
case-sensitive `replace` misses `WWW.` and lowercasing happens after it),
and the second pass strips the now-lowercase `www.`. -/
theorem spec_c5_counterexample :
    netlocBad (netlocOf (withProto (strip "WWW.example.com".data))) = false ∧
    (cleanDomain "WWW.example.com".data).1 = "www.example.com".data ∧
    (cleanDomain (cleanDomain "WWW.example.com".data).1).1 ≠
      (cleanDomain "WWW.example.com".data).1 := by
  refine ⟨by decide, by decide, by decide⟩

theorem spec_c5_witness :
    (cleanDomain (cleanDomain "https://www.terrascend.com/".data).1).1 =
      (cleanDomain "https://www.terrascend.com/".data).1 :=
  spec_c5_clean_domain_idem "https://www.terrascend.com/".data
    (by decide) (by decide) (by decide)

/-- Claim C6: empty (or null) input returns the empty string with no step;
in the parsed-URL path exactly one `CleaningStep` is emitted iff the
result differs from the lowercased trimmed original, and none otherwise;
`clean_domain("ayrwellness.com")` returns unchanged with no step, and
`clean_domain("")` returns `""` with no step. -/
theorem spec_c6_domain_steps (s : List Char) (hs : s ≠ [])
    (hok : netlocBad (netlocOf (withProto (strip s))) = false) :
    cleanDomain [] = ([], []) ∧
    (cleanDomain s).2.length = (if (cleanDomain s).1 = lower (strip s) then 0 else 1) ∧
    cleanDomain "ayrwellness.com".data = ("ayrwellness.com".data, []) ∧
    cleanDomain "".data = ([], []) :=
  ⟨rfl, cleanDomain_snd_parse hs hok, by decide, rfl⟩

theorem spec_c6_witness :
    cleanDomain [] = ([], []) ∧
    (cleanDomain "ayrwellness.com".data).2.length =
      (if (cleanDomain "ayrwellness.com".data).1 = lower (strip "ayrwellness.com".data)
       then 0 else 1) ∧
    cleanDomain "ayrwellness.com".data = ("ayrwellness.com".data, []) ∧
    cleanDomain "".data = ([], []) :=
  spec_c6_domain_steps "ayrwellness.com".data (by decide) (by decide)

/-- Claim C2: every transformed record is classified as exactly one of
valid (no errors) or invalid (some error), so the two counts sum to the
total; every zero-error record appears in the final export, and every
exported record has zero validation errors (at any row index). -/
theorem spec_c2_partition_export (rs : List PRec) :
    ((validIndices rs).length + (invalidIndices rs).length = rs.length) ∧
    (∀ p ∈ rs.enum, (validateRow p.2 p.1).1 = [] → p.2 ∈ finalExport rs) ∧
    (∀ r ∈ finalExport rs, ∀ j : Nat, (validateRow r j).1 = []) := by
  refine ⟨?_, ?_, ?_⟩
  · rw [validIndices, invalidIndices]
    simp only [List.length_map]
    rw [length_filter_add_length_filter_not isValidRow rs.enum, List.enum_length]
  · intro p hp h
    exact mem_finalExport_of hp h
  · intro r hr j
    exact finalExport_mem_errors_nil hr j

/-- Claim C3: `get_best_phone` walks Mobile, Direct, Office in that fixed
order; the first present, non-null, non-blank field determines the
returned (cleaned) value and later fields never override it, though they
are still cleaned and recorded as available; with at least one available
field exactly one `Phone Selection` step is emitted, listing all available
field names and naming the selected field and value; with none, the result
is `''` with no steps.  On the spec's example the Mobile value is selected
and the step names Mobile. -/
theorem spec_c3_phone_priority (ρ : SrcRecord) :
    (availOf ρ phoneFields = [] → getBestPhone ρ = ([], [])) ∧
    (∀ f rest, availOf ρ phoneFields = f :: rest →
      (getBestPhone ρ).1 = availVal ρ f ∧
      (getBestPhone ρ).2 =
        ((f :: rest).flatMap (availClean ρ)) ++
          [⟨"Phone Selection",
            ("Available: " ++ String.intercalate ", " (f :: rest)).data,
            some (availVal ρ f),
            "Selected " ++ f ++ " (highest priority)"⟩]) ∧
    getBestPhone phoneExample =
      ("+1 203-451-7659".data,
       [⟨"Phone Selection", "Available: Mobile, Direct".data,
         some "+1 203-451-7659".data, "Selected Mobile (highest priority)"⟩]) := by
  refine ⟨?_, ?_, by decide⟩
  · intro h
    rw [getBestPhone_eq, h]
  · intro f rest h
    rw [getBestPhone_eq, h]
    exact ⟨rfl, rfl⟩

/-- Claim C10: when the highest-priority phone field is non-blank but
consists only of disallowed characters, `get_best_phone` still selects it:
the returned number is `''` even though Direct holds a usable number, and
the `Phone Selection` step records `''` as the selected value while naming
Mobile as selected. -/
theorem spec_c10_garbage_phone :
    (getBestPhone garbageMobile).1 = [] ∧
    (cleanPhone ((garbageMobile "Direct").getD [])).1 = "+1 203-557-0353".data ∧
    (getBestPhone garbageMobile).2 =
      [⟨"Phone Number", "abc".data, some [], "Remove special characters"⟩,
       ⟨"Phone Selection", "Available: Mobile, Direct".data, some [],
        "Selected Mobile (highest priority)"⟩] := by
  refine ⟨by decide, by decide, by decide⟩

/-- Claim C7: `validate_record` evaluates every rule independently,
without short-circuiting (its error count is the sum of the independent
rule indicators), each blank-after-trim required field contributes exactly
the one error naming the 1-based row and the field's display name, and
both contact channels blank contribute exactly the one either-or error.
The validator is a total function of the record — in the embedding (the
spec's data model: string-valued fields) no input can make it fail. -/
theorem spec_c7_validate_rules (ρ : SrcRecord) (i : Nat) :
    ((validateRecord ρ i).1.length =
      (requiredChecks.countP (fun p => blankAfterStrip ρ p.1))
        + (if (!hasEmail ρ && !hasPhone ρ) = true then 1 else 0)
        + (if (hasEmail ρ && !validateEmail (ρ "contact_primary_email")) = true
           then 1 else 0)) ∧
    (∀ p ∈ requiredChecks,
      (rowMsg i ("Missing required field '" ++ p.2 ++ "'") ∈ (validateRecord ρ i).1 ↔
        blankAfterStrip ρ p.1 = true)) ∧
    (rowMsg i "Must have either email or phone number" ∈ (validateRecord ρ i).1 ↔
      ((!hasEmail ρ && !hasPhone ρ) = true)) := by
  refine ⟨?_, ?_, ?_⟩
  · simp only [validateRecord, List.length_append, length_ite_singleton,
      requiredChecks, List.countP_cons, List.countP_nil]
    split_ifs <;> simp_all
  · intro p hp
    fin_cases hp <;>
      simp [validateRecord, List.mem_append, mem_ite_singleton, rowMsg_eq_iff]
  · simp [validateRecord, List.mem_append, mem_ite_singleton, rowMsg_eq_iff]

/-- Claim C8: the email-format rule fires only when the email is non-blank
after trimming, and then contributes exactly one error iff `validate_email`
rejects the raw value; `validate_email` decides precisely the anchored
pattern `[a-zA-Z0-9._%+-]+ @ [a-zA-Z0-9.-]+ . [a-zA-Z]{2,}` (stated
declaratively), and the two spec examples hold. -/
theorem spec_c8_email_rule (ρ : SrcRecord) (i : Nat) :
    ((validateRecord ρ i).1.count (rowMsg i "Invalid email format") =
      if (hasEmail ρ && !validateEmail (ρ "contact_primary_email")) = true
      then 1 else 0) ∧
    (∀ e : List Char, emailRegexMatch e = true ↔
      ∃ L D T : List Char,
        e = L ++ '@' :: (D ++ '.' :: T) ∧
        L ≠ [] ∧ (∀ c ∈ L, isLocalChar c = true) ∧
        D ≠ [] ∧ (∀ c ∈ D, isDomainChar c = true) ∧
        2 ≤ T.length ∧ (∀ c ∈ T, c.isAlpha = true)) ∧
    validateEmail (some "benjamin.rogers@ayrwellness.com".data) = true ∧
    validateEmail (some "not-an-email".data) = false := by
  refine ⟨?_, emailRegexMatch_iff, by decide, by decide⟩
  simp [validateRecord, List.count_append, count_ite_singleton, rowMsg_eq_iff]

theorem maskLinkedin_apply_ne {ρ : SrcRecord} {k : String}
    (h1 : k ≠ "contact_linkedin_url") (h2 : k ≠ "account_linkedin_url") :
    maskLinkedin ρ k = ρ k := by
  simp [maskLinkedin, h1, h2]

theorem blankAfterStrip_mask (ρ : SrcRecord) (k : String)
    (h1 : k ≠ "contact_linkedin_url") (h2 : k ≠ "account_linkedin_url") :
    blankAfterStrip (maskLinkedin ρ) k = blankAfterStrip ρ k := by
  rw [blankAfterStrip, blankAfterStrip, getD, getD, maskLinkedin_apply_ne h1 h2]

/-- Claim C9: for each LinkedIn field, a non-empty value without the
case-insensitive substring `linkedin.com` produces exactly one warning,
and never an error (the warning messages never occur among the errors);
the error list — and with it validity and membership in the final export —
does not depend on the LinkedIn fields at all. -/
theorem spec_c9_linkedin_warnings (ρ : SrcRecord) (i : Nat) :
    ((validateRecord ρ i).2.count (rowMsg i "Personal LinkedIn URL may be invalid") =
      if linkedinSuspect ρ "contact_linkedin_url" = true then 1 else 0) ∧
    ((validateRecord ρ i).2.count (rowMsg i "Company LinkedIn URL may be invalid") =
      if linkedinSuspect ρ "account_linkedin_url" = true then 1 else 0) ∧
    (rowMsg i "Personal LinkedIn URL may be invalid" ∉ (validateRecord ρ i).1) ∧
    (rowMsg i "Company LinkedIn URL may be invalid" ∉ (validateRecord ρ i).1) ∧
    ((validateRecord ρ i).1 = (validateRecord (maskLinkedin ρ) i).1) := by
  refine ⟨?_, ?_, ?_, ?_, ?_⟩
  · simp [validateRecord, List.count_append, count_ite_singleton, rowMsg_eq_iff]
  · simp [validateRecord, List.count_append, count_ite_singleton, rowMsg_eq_iff]
  · simp [validateRecord, List.mem_append, mem_ite_singleton, rowMsg_eq_iff]
  · simp [validateRecord, List.mem_append, mem_ite_singleton, rowMsg_eq_iff]
  · have e1 := blankAfterStrip_mask ρ "contact_first_name" (by decide) (by decide)
    have e2 := blankAfterStrip_mask ρ "contact_last_name" (by decide) (by decide)
    have e3 := blankAfterStrip_mask ρ "account_name" (by decide) (by decide)
    have e4 := blankAfterStrip_mask ρ "account_domain_name" (by decide) (by decide)
    have he : hasEmail (maskLinkedin ρ) = hasEmail ρ := by
      rw [hasEmail, hasEmail, blankAfterStrip_mask ρ _ (by decide) (by decide)]
    have hp : hasPhone (maskLinkedin ρ) = hasPhone ρ := by
      rw [hasPhone, hasPhone, blankAfterStrip_mask ρ _ (by decide) (by decide)]
    have hv : maskLinkedin ρ "contact_primary_email" = ρ "contact_primary_email" :=
      maskLinkedin_apply_ne (by decide) (by decide)
    simp only [validateRecord, e1, e2, e3, e4, he, hp, hv]

end HubspotReevo
